import Mathlib

/-!
Verification of the Security+ / Security+ 2.0 codec (`secplus.py`).

The Python module is shallowly embedded: lists of `Nat` stand for Python
lists of small non-negative integers, `Except PyErr` models raised
exceptions, and the Python `f"{n:0wb}"[::-1]` bit-reversal idiom is modelled
by explicit digit-list functions.  Definitions mirror the source functions
one by one; lemmas and the claim theorems follow.
-/

namespace Secplus

/-- Kinds of Python exceptions observable from the module: `ValueError`
with its message, `KeyError` (uncaught dictionary lookup failure, as in
`_v2_scramble`), `IndexError` (out-of-range list subscript), and
`TypeError` (e.g. `list + None`). -/
inductive PyErr where
  | valueError (msg : String)
  | keyError
  | indexError
  | typeError
deriving DecidableEq, Repr

deriving instance DecidableEq for Except

/-- Models a Python list subscript `l[i]` for a non-negative index:
returns the element, or raises `IndexError` when out of range. -/
def pyGet (l : List Nat) (i : Nat) : Except PyErr Nat :=
  if h : i < l.length then .ok l[i] else .error .indexError

theorem pyGet_eq_ok (l : List Nat) (i : Nat) (h : i < l.length) :
    pyGet l i = .ok (l.getD i 0) := by
  simp [pyGet, h, List.getD_eq_getElem]

/-! ### Positional digit expansions

`digitsLSB b w n` is the list of the `w` least-significant base-`b` digits
of `n`, least significant first; `valLSB`/`valMSB` evaluate digit lists.
These model the Python idioms `f"{n:0wb}"` (the reverse of
`digitsLSB 2 w n` when `n < 2^w`), repeated `n % 3` / `n //= 3` loops, and
`int(s, 2)` on digit strings. -/

def digitsLSB (b : Nat) : Nat → Nat → List Nat
  | 0, _ => []
  | w + 1, n => n % b :: digitsLSB b w (n / b)

def valLSB (b : Nat) : List Nat → Nat
  | [] => 0
  | d :: t => d + b * valLSB b t

/-- Evaluate a digit list, most significant digit first. -/
def valMSB (b : Nat) (l : List Nat) : Nat :=
  l.foldl (fun acc d => acc * b + d) 0

theorem length_digitsLSB (b : Nat) : ∀ w n, (digitsLSB b w n).length = w := by
  intro w
  induction w with
  | zero => intro n; rfl
  | succ k ih => intro n; simp [digitsLSB, ih]

theorem mem_digitsLSB_lt (b : Nat) (hb : 0 < b) :
    ∀ w n d, d ∈ digitsLSB b w n → d < b := by
  intro w
  induction w with
  | zero => intro n d h; simp [digitsLSB] at h
  | succ k ih =>
    intro n d h
    simp only [digitsLSB, List.mem_cons] at h
    rcases h with h | h
    · subst h; exact Nat.mod_lt _ hb
    · exact ih _ _ h

theorem valLSB_digitsLSB (b : Nat) (hb : 0 < b) :
    ∀ w n, valLSB b (digitsLSB b w n) = n % b ^ w := by
  intro w
  induction w with
  | zero => intro n; simp [digitsLSB, valLSB, Nat.mod_one]
  | succ k ih =>
    intro n
    simp only [digitsLSB, valLSB, ih]
    rw [Nat.pow_succ, Nat.mul_comm (b ^ k) b, Nat.mod_mul]

theorem valLSB_lt (b : Nat) :
    ∀ l : List Nat, (∀ d ∈ l, d < b) → valLSB b l < b ^ l.length := by
  intro l
  induction l with
  | nil => intro _; simp [valLSB]
  | cons d t ih =>
    intro h
    have hd : d < b := h d (by simp)
    have ht : valLSB b t < b ^ t.length := ih (fun x hx => h x (by simp [hx]))
    simp only [valLSB, List.length_cons, Nat.pow_succ]
    calc d + b * valLSB b t < b + b * valLSB b t := by omega
    _ = b * (valLSB b t + 1) := by ring
    _ ≤ b * b ^ t.length := by
        exact Nat.mul_le_mul_left b (by omega)
    _ = b ^ t.length * b := by ring

theorem digitsLSB_valLSB (b : Nat) :
    ∀ l : List Nat, (∀ d ∈ l, d < b) → digitsLSB b l.length (valLSB b l) = l := by
  intro l
  induction l with
  | nil => intro _; rfl
  | cons d t ih =>
    intro h
    have hd : d < b := h d (by simp)
    have hb : 0 < b := by omega
    have h1 : (d + b * valLSB b t) % b = d := by
      rw [Nat.add_mul_mod_self_left, Nat.mod_eq_of_lt hd]
    have h2 : (d + b * valLSB b t) / b = valLSB b t := by
      rw [Nat.add_mul_div_left _ _ hb, Nat.div_eq_of_lt hd, Nat.zero_add]
    simp only [List.length_cons, digitsLSB, valLSB, h1, h2]
    rw [ih (fun x hx => h x (by simp [hx]))]

theorem valMSB_reverse (b : Nat) :
    ∀ l : List Nat, valMSB b l.reverse = valLSB b l := by
  intro l
  induction l with
  | nil => rfl
  | cons d t ih =>
    simp only [List.reverse_cons, valMSB, List.foldl_append, List.foldl_cons,
      List.foldl_nil, valLSB]
    have : t.reverse.foldl (fun acc x => acc * b + x) 0 = valLSB b t := ih
    rw [this]; ring

theorem valMSB_eq_valLSB_reverse (b : Nat) (l : List Nat) :
    valMSB b l = valLSB b l.reverse := by
  have := valMSB_reverse b l.reverse
  simpa using this

theorem valMSB_digitsLSB_reverse (b : Nat) (hb : 0 < b) (w n : Nat) :
    valMSB b ((digitsLSB b w n).reverse) = n % b ^ w := by
  rw [valMSB_reverse, valLSB_digitsLSB b hb]

/-! ### Python bit reversal

`pyRev w n` models `int(f"{n:0wb}"[::-1], 2)` when the formatted string has
exactly `w` characters; `bitLen` models `int.bit_length`, and `pyRevPad`
models the general idiom, where the format pads to at least the given
minimum width. -/

def pyRev (w n : Nat) : Nat := valMSB 2 (digitsLSB 2 w n)

def bitLenAux : Nat → Nat → Nat
  | 0, _ => 0
  | fuel + 1, n => if n = 0 then 0 else bitLenAux fuel (n / 2) + 1

def bitLen (n : Nat) : Nat := bitLenAux n n

def pyRevPad (minw n : Nat) : Nat := pyRev (max minw (bitLen n)) n

theorem bitLenAux_le (w : Nat) :
    ∀ fuel n, n ≤ fuel → n < 2 ^ w → bitLenAux fuel n ≤ w := by
  induction w with
  | zero =>
    intro fuel n hf hn
    have : n = 0 := by simpa using hn
    subst this
    cases fuel <;> simp [bitLenAux]
  | succ k ih =>
    intro fuel n hf hn
    cases fuel with
    | zero => simp [bitLenAux]
    | succ f =>
      by_cases h0 : n = 0
      · simp [bitLenAux, h0]
      · simp only [bitLenAux, h0, if_false]
        have hpow : 2 ^ (k + 1) = 2 * 2 ^ k := by rw [Nat.pow_succ]; ring
        have h1 : n / 2 < 2 ^ k := by omega
        have h2 : n / 2 ≤ f := by omega
        have := ih f (n / 2) h2 h1
        omega

theorem bitLen_le (n w : Nat) (h : n < 2 ^ w) : bitLen n ≤ w :=
  bitLenAux_le w n n (Nat.le_refl n) h

theorem pyRevPad_eq (minw n : Nat) (h : n < 2 ^ minw) :
    pyRevPad minw n = pyRev minw n := by
  unfold pyRevPad
  rw [Nat.max_eq_left (bitLen_le n minw h)]

theorem pyRev_lt (w n : Nat) : pyRev w n < 2 ^ w := by
  unfold pyRev
  rw [valMSB_eq_valLSB_reverse]
  have hlen : (digitsLSB 2 w n).reverse.length = w := by
    simp [length_digitsLSB]
  have := valLSB_lt 2 (digitsLSB 2 w n).reverse
    (fun d hd => mem_digitsLSB_lt 2 (by omega) w n d (by simpa using hd))
  rw [hlen] at this
  exact this

theorem pyRev_pyRev (w n : Nat) (h : n < 2 ^ w) : pyRev w (pyRev w n) = n := by
  have hbits : ∀ d ∈ (digitsLSB 2 w n).reverse, d < 2 := by
    intro d hd
    exact mem_digitsLSB_lt 2 (by omega) w n d (by simpa using hd)
  have key : ∀ l : List Nat, l.length = w → (∀ d ∈ l, d < 2) →
      pyRev w (valLSB 2 l) = valLSB 2 l.reverse := by
    intro l hlen hb
    unfold pyRev
    rw [← hlen, digitsLSB_valLSB 2 l hb, valMSB_eq_valLSB_reverse]
  have h1 : pyRev w n = valLSB 2 (digitsLSB 2 w n).reverse :=
    valMSB_eq_valLSB_reverse 2 _
  rw [h1, key _ (by simp [length_digitsLSB]) hbits, List.reverse_reverse,
    valLSB_digitsLSB 2 (by omega), Nat.mod_eq_of_lt h]

theorem pyRev_even_lt (v n : Nat) (h : n % 2 = 0) : pyRev (v + 1) n < 2 ^ v := by
  unfold pyRev
  simp only [digitsLSB, h]
  have : valMSB 2 (0 :: digitsLSB 2 v (n / 2)) = valMSB 2 (digitsLSB 2 v (n / 2)) := by
    simp [valMSB]
  rw [this]
  exact pyRev_lt v (n / 2)

/-! ### Security+ v1 codec

`decode` processes the 40 payload symbols in pairs (`for i in range(0, 40, 2)`),
with the running checksum accumulator reset at `i = 0` and `i = 20`; the two
accumulator runs are rendered as two `decodePairs` passes over the first and
second ten symbol pairs.  An out-of-range subscript (`code[i]` for a list
shorter than 40) raises `IndexError`; entries beyond the first 40 are never
read. -/

def toPairs : List Nat → List (Nat × Nat)
  | c0 :: c1 :: rest => (c0, c1) :: toPairs rest
  | _ => []

/-- One run of the v1 decode loop: per pair, the first symbol is a rolling
digit and is added to `acc`; the fixed digit is `(code[i+1] - acc) % 3`
(Python `%` on ints, hence the `Int` detour) and is then added to `acc`. -/
def decodePairs : List (Nat × Nat) → Nat → Nat → Nat → Nat × Nat × Nat
  | [], rolling, fixed, acc => (rolling, fixed, acc)
  | (c0, c1) :: rest, rolling, fixed, acc =>
    let acc1 := acc + c0
    let d := (((c1 : Int) - (acc1 : Int)) % 3).toNat
    decodePairs rest (rolling * 3 + c0) (fixed * 3 + d) (acc1 + d)

/-- Models `secplus.decode`. -/
def decode (code : List Nat) : Except PyErr (Nat × Nat) :=
  if code.length < 40 then .error .indexError
  else
    let ps := toPairs (code.take 40)
    let r1 := decodePairs (ps.take 10) 0 0 0
    let r2 := decodePairs (ps.drop 10) r1.1 r1.2.1 0
    .ok (pyRevPad 32 r2.1, r2.2.1)

/-- One run of the v1 encode loop: per digit pair, emit the rolling digit,
add rolling then fixed digit to `acc`, and emit `acc % 3`. -/
def encodePairs : List (Nat × Nat) → Nat → List Nat
  | [], _ => []
  | (r, f) :: rest, acc =>
    r :: (acc + r + f) % 3 :: encodePairs rest (acc + r + f)

/-- Models `secplus.encode`: range checks, clear bit 0 of the rolling code,
bit-reverse it over 32 bits, expand rolling and fixed to 20 base-3 digits
(most significant first) and emit the 20 symbol pairs, with the checksum
accumulator reset at digit positions 0 and 10. -/
def encode (rolling fixed : Nat) : Except PyErr (List Nat) :=
  if rolling ≥ 2 ^ 32 then .error (.valueError "Rolling code must be less than 2^32")
  else if fixed ≥ 3 ^ 20 then .error (.valueError "Fixed code must be less than 3^20")
  else
    let r := pyRevPad 32 (rolling &&& 0xfffffffe)
    let rolling_base3 := (digitsLSB 3 20 r).reverse
    let fixed_base3 := (digitsLSB 3 20 fixed).reverse
    let ps := rolling_base3.zip fixed_base3
    .ok (encodePairs (ps.take 10) 0 ++ encodePairs (ps.drop 10) 0)

theorem length_encodePairs : ∀ (ps : List (Nat × Nat)) (acc : Nat),
    (encodePairs ps acc).length = 2 * ps.length := by
  intro ps
  induction ps with
  | nil => intro acc; rfl
  | cons p rest ih =>
    intro acc
    obtain ⟨r, f⟩ := p
    simp only [encodePairs, List.length_cons, ih]
    omega

theorem toPairs_encodePairs_append : ∀ (ps : List (Nat × Nat)) (acc : Nat) (rest : List Nat),
    toPairs (encodePairs ps acc ++ rest) = toPairs (encodePairs ps acc) ++ toPairs rest := by
  intro ps
  induction ps with
  | nil => intro acc rest; rfl
  | cons p t ih =>
    intro acc rest
    obtain ⟨r, f⟩ := p
    simp only [encodePairs, List.cons_append, toPairs]
    exact congrArg (List.cons _) (ih (acc + r + f) rest)

theorem length_toPairs_encodePairs : ∀ (ps : List (Nat × Nat)) (acc : Nat),
    (toPairs (encodePairs ps acc)).length = ps.length := by
  intro ps
  induction ps with
  | nil => intro acc; rfl
  | cons p t ih =>
    intro acc
    obtain ⟨r, f⟩ := p
    simp only [encodePairs, toPairs, List.length_cons, ih]

/-- The fixed digit recovered by the decode loop from an encoded pair is the
original digit. -/
theorem decode_digit (acc r f : Nat) (hf : f < 3) :
    ((((acc + r + f) % 3 : Nat) : Int) - ((acc + r : Nat) : Int)) % 3 = (f : Int) := by
  have h1 : (((acc + r + f) % 3 : Nat) : Int) = ((acc + r + f : Nat) : Int) % 3 := by
    push_cast
    ring_nf
  rw [h1]
  push_cast
  omega

/-- Round trip of one accumulator run: decoding the pairs emitted by
`encodePairs` recovers the digit streams. -/
theorem decodePairs_encodePairs : ∀ (ps : List (Nat × Nat)) (R F acc : Nat),
    (∀ p ∈ ps, p.2 < 3) →
    decodePairs (toPairs (encodePairs ps acc)) R F acc =
      (ps.foldl (fun a p => a * 3 + p.1) R, ps.foldl (fun a p => a * 3 + p.2) F,
       acc + (ps.map (fun p => p.1 + p.2)).sum) := by
  intro ps
  induction ps with
  | nil => intro R F acc _; simp [encodePairs, toPairs, decodePairs]
  | cons p t ih =>
    intro R F acc h
    obtain ⟨r, f⟩ := p
    have hf : f < 3 := h (r, f) (by simp)
    simp only [encodePairs, toPairs, decodePairs]
    have hd : ((((acc + r + f) % 3 : Nat) : Int) - ((acc + r : Nat) : Int)) % 3 = (f : Int) :=
      decode_digit acc r f hf
    rw [hd]
    simp only [Int.toNat_natCast, List.foldl_cons, List.map_cons, List.sum_cons]
    rw [ih _ _ _ (fun q hq => h q (by simp [hq]))]
    simp [Nat.add_assoc]

/-- Decoding the full 40-symbol output of the v1 encode loop recovers the
base-3 digit streams `r3` and `f3` (as base-3 values, most significant
digit first). -/
theorem decode_encodePairs (r3 f3 : List Nat) (h3 : r3.length = 20) (h4 : f3.length = 20)
    (hf : ∀ d ∈ f3, d < 3) :
    decode (encodePairs ((r3.zip f3).take 10) 0 ++ encodePairs ((r3.zip f3).drop 10) 0)
      = .ok (pyRevPad 32 (valMSB 3 r3), valMSB 3 f3) := by
  have lps : (r3.zip f3).length = 20 := by simp [List.length_zip, h3, h4]
  set ps := r3.zip f3 with hps
  have lA : (ps.take 10).length = 10 := by simp [lps]
  have lB : (ps.drop 10).length = 10 := by simp [lps]
  have hfA : ∀ p ∈ ps.take 10, p.2 < 3 := by
    intro p hp
    obtain ⟨a, b⟩ := p
    have hmem : (a, b) ∈ ps := List.take_subset _ _ hp
    rw [hps] at hmem
    exact hf b (List.of_mem_zip hmem).2
  have hfB : ∀ p ∈ ps.drop 10, p.2 < 3 := by
    intro p hp
    obtain ⟨a, b⟩ := p
    have hmem : (a, b) ∈ ps := List.drop_subset _ _ hp
    rw [hps] at hmem
    exact hf b (List.of_mem_zip hmem).2
  have hlen : (encodePairs (ps.take 10) 0 ++ encodePairs (ps.drop 10) 0).length = 40 := by
    simp [List.length_append, length_encodePairs, lA, lB]
  have ltA : (toPairs (encodePairs (ps.take 10) 0)).length = 10 := by
    rw [length_toPairs_encodePairs, lA]
  simp only [decode]
  rw [if_neg (by omega), List.take_of_length_le (by omega), toPairs_encodePairs_append,
    List.take_left' ltA, List.drop_left' ltA,
    decodePairs_encodePairs _ _ _ _ hfA, decodePairs_encodePairs _ _ _ _ hfB]
  have hfold1 : (ps.drop 10).foldl (fun a p => a * 3 + p.1)
      ((ps.take 10).foldl (fun a p => a * 3 + p.1) 0) = valMSB 3 r3 := by
    rw [← List.foldl_append, List.take_append_drop, hps]
    have := List.foldl_map Prod.fst (fun (a d : Nat) => a * 3 + d) (r3.zip f3) 0
    rw [List.map_fst_zip r3 f3 (by omega)] at this
    exact this.symm
  have hfold2 : (ps.drop 10).foldl (fun a p => a * 3 + p.2)
      ((ps.take 10).foldl (fun a p => a * 3 + p.2) 0) = valMSB 3 f3 := by
    rw [← List.foldl_append, List.take_append_drop, hps]
    have := List.foldl_map Prod.snd (fun (a d : Nat) => a * 3 + d) (r3.zip f3) 0
    rw [List.map_snd_zip r3 f3 (by omega)] at this
    exact this.symm
  rw [hfold1, hfold2]

/-- C2 helper: the masked rolling code is even. -/
theorem masked_even (rolling : Nat) : (rolling &&& 0xfffffffe) % 2 = 0 := by
  have h3 : rolling &&& 0xfffffffe &&& 1 = rolling &&& (0xfffffffe &&& 1) :=
    Nat.and_assoc rolling 0xfffffffe 1
  have h4 : (0xfffffffe &&& 1 : Nat) = 0 := by decide
  rw [← Nat.and_one_is_mod, h3, h4, Nat.and_zero]

/-- C2: for every `rolling < 2^32` and `fixed < 3^20`,
`decode (encode rolling fixed)` returns exactly
`(rolling &&& 0xFFFFFFFE, fixed)`: the fixed code and all bits of the
rolling code except bit 0 (which `encode` clears) round-trip through the
v1 codec. -/
theorem c2_v1_round_trip (rolling fixed : Nat) (h1 : rolling < 2 ^ 32) (h2 : fixed < 3 ^ 20) :
    (encode rolling fixed).bind decode = .ok (rolling &&& 0xfffffffe, fixed) := by
  have hm : rolling &&& 0xfffffffe ≤ rolling := Nat.and_le_left
  have hm32 : rolling &&& 0xfffffffe < 2 ^ 32 := by omega
  have heven : (rolling &&& 0xfffffffe) % 2 = 0 := masked_even rolling
  set m := rolling &&& 0xfffffffe with hmdef
  have hrev : pyRevPad 32 m = pyRev 32 m := pyRevPad_eq 32 m hm32
  have hr31 : pyRev 32 m < 2 ^ 31 := by
    have := pyRev_even_lt 31 m heven
    norm_num at this
    exact this
  have hr20 : pyRev 32 m < 3 ^ 20 := lt_trans hr31 (by norm_num)
  have hr32 : pyRev 32 m < 2 ^ 32 := lt_trans hr20 (by norm_num)
  simp only [encode]
  rw [if_neg (by omega), if_neg (by omega)]
  have hbind : ∀ (c : List Nat) (g : List Nat → Except PyErr (Nat × Nat)),
      (Except.ok c).bind g = g c := fun _ _ => rfl
  rw [hbind]
  rw [decode_encodePairs _ _ (by simp [length_digitsLSB]) (by simp [length_digitsLSB])
    (fun d hd => mem_digitsLSB_lt 3 (by omega) _ _ d (by simpa using hd))]
  rw [valMSB_digitsLSB_reverse 3 (by omega), valMSB_digitsLSB_reverse 3 (by omega),
    hrev, Nat.mod_eq_of_lt hr20, Nat.mod_eq_of_lt h2,
    pyRevPad_eq 32 _ hr32, pyRev_pyRev 32 m hm32]

/-- C2 witness: concrete instance of the v1 round trip. -/
theorem c2_v1_round_trip_witness :
    (encode 7 9).bind decode = .ok (6, 9) :=
  c2_v1_round_trip 7 9 (by norm_num) (by norm_num)

/-- C4 counterexample: a 41-entry v1 code is decoded without any error
(the loop reads only the first 40 entries), contradicting the claim that
decode fails for every input that is not exactly 40 entries long. -/
theorem c4_counterexample_41_entries_accepted :
    decode (List.replicate 41 0) = .ok (0, 0) := by rfl

/-- C4 amended: v1 decode raises `IndexError` precisely when the input has
fewer than 40 entries; inputs with 40 or more entries are decoded without
error (entries beyond the first 40 are ignored, and entry values outside
the symbol alphabet trigger no error). -/
theorem c4_amended_decode_error_iff_short (code : List Nat) :
    decode code = .error .indexError ↔ code.length < 40 := by
  by_cases h : code.length < 40
  · simp [decode, h]
  · simp [decode, h]

/-- C5 counterexample: `encode 123456789 1000` followed by `decode` does
not return `(123456784, 1000)` as claimed. -/
theorem c5_counterexample_not_123456784 :
    (encode 123456789 1000).bind decode ≠ .ok (123456784, 1000) := by decide

/-- C5 amended: `encode 123456789 1000` followed by `decode` returns
exactly `(123456788, 1000)`: only bit 0 of the rolling code is cleared. -/
theorem c5_amended_round_trip_123456788 :
    (encode 123456789 1000).bind decode = .ok (123456788, 1000) := by rfl

/-- C10: v1 decode reads only the first 40 entries of its input: for every
list of length at least 40, `decode code = decode (code.take 40)`, and
longer inputs are not rejected. -/
theorem c10_decode_reads_first_40 (code : List Nat) (h : 40 ≤ code.length) :
    decode code = decode (code.take 40) ∧ ∃ v, decode code = .ok v := by
  have hlen : (code.take 40).length = 40 := by simp [List.length_take]; omega
  have heq : (code.take 40).take 40 = code.take 40 := by
    rw [List.take_take]
    norm_num
  constructor
  · simp only [decode]
    rw [if_neg (by omega), if_neg (by omega), heq]
  · simp only [decode]
    rw [if_neg (by omega)]
    exact ⟨_, rfl⟩

/-- C10 witness: a concrete 41-entry input decodes to the same result as
its 40-entry front. -/
theorem c10_decode_reads_first_40_witness :
    decode (List.replicate 41 1) = decode ((List.replicate 41 1).take 40) ∧
      ∃ v, decode (List.replicate 41 1) = .ok v :=
  c10_decode_reads_first_40 (List.replicate 41 1) (by decide)

/-! ### Scrambling engine (v2)

The two 9-entry protocol tables `_ORDER` and `_INVERT` are modelled as
partial lookups (`Option`); a missing key is Python's `KeyError`.  Parts
are the 3-element Python list `[part0, part1, part2]`, modelled as a
triple of lists. -/

/-- The `_ORDER` table: permutation of `(0, 1, 2)` per legal 4-bit key. -/
def ORDER (k : Nat) : Option (Nat × Nat × Nat) :=
  match k with
  | 0b0000 => some (0, 2, 1)
  | 0b0001 => some (2, 0, 1)
  | 0b0010 => some (0, 1, 2)
  | 0b0100 => some (1, 2, 0)
  | 0b0101 => some (1, 0, 2)
  | 0b0110 => some (2, 1, 0)
  | 0b1000 => some (1, 2, 0)
  | 0b1001 => some (2, 1, 0)
  | 0b1010 => some (0, 1, 2)
  | _ => none

/-- The `_INVERT` table: per-part inversion flags per legal 4-bit key. -/
def INVERT (k : Nat) : Option (Bool × Bool × Bool) :=
  match k with
  | 0b0000 => some (true, true, false)
  | 0b0001 => some (false, true, false)
  | 0b0010 => some (false, false, true)
  | 0b0100 => some (true, true, true)
  | 0b0101 => some (true, false, true)
  | 0b0110 => some (false, true, true)
  | 0b1000 => some (true, false, false)
  | 0b1001 => some (false, false, false)
  | 0b1010 => some (true, false, true)
  | _ => none

/-- Python stride-3 slice `l[0::3]`. -/
def everyThird : List Nat → List Nat
  | [] => []
  | [x] => [x]
  | [x, _] => [x]
  | x :: _ :: _ :: rest => x :: everyThird rest

/-- Python `bit ^ 1` applied to a whole part when its inversion flag is
set. -/
def applyInvert (b : Bool) (l : List Nat) : List Nat :=
  if b then l.map (fun bit => bit ^^^ 1) else l

/-- Python list subscript `parts[i]` on the 3-element parts list (the
table only ever supplies indices 0, 1, 2). -/
def sel3 (p : List Nat × List Nat × List Nat) (i : Nat) : List Nat :=
  match i with
  | 0 => p.1
  | 1 => p.2.1
  | _ => p.2.2

/-- The unscramble placement `parts[order[i]] = parts_permuted[i]`,
starting from `[[], [], []]`; a later assignment wins, as in Python. -/
def place3 (order : Nat × Nat × Nat) (pp0 pp1 pp2 : List Nat) :
    List Nat × List Nat × List Nat :=
  let pick := fun j =>
    if order.2.2 = j then pp2
    else if order.2.1 = j then pp1
    else if order.1 = j then pp0
    else []
  (pick 0, pick 1, pick 2)

/-- The scramble interleaving loop: `for i in range(len(pp0))` emits
`pp0[i], pp1[i], pp2[i]`; a short `pp1`/`pp2` raises `IndexError`. -/
def interleave3 : List Nat → List Nat → List Nat → Except PyErr (List Nat)
  | [], _, _ => .ok []
  | a :: as_, bs, cs =>
    match bs, cs with
    | b :: bs_, c :: cs_ =>
      match interleave3 as_ bs_ cs_ with
      | .ok rest => .ok (a :: b :: c :: rest)
      | .error e => .error e
    | _, _ => .error .indexError

/-- Models `secplus._v2_unscramble`.  The `KeyError` from an illegal table
key is caught and re-raised as `ValueError("Illegal value for ternary
bit")`; an out-of-range `indicator[i]` propagates as `IndexError`. -/
def v2_unscramble (indicator payload : List Nat) :
    Except PyErr (List Nat × List Nat × List Nat) :=
  match pyGet indicator 0, pyGet indicator 1, pyGet indicator 2, pyGet indicator 3,
        pyGet indicator 4, pyGet indicator 5, pyGet indicator 6, pyGet indicator 7 with
  | .ok i0, .ok i1, .ok i2, .ok i3, .ok i4, .ok i5, .ok i6, .ok i7 =>
    match ORDER ((i0 <<< 3) ||| (i1 <<< 2) ||| (i2 <<< 1) ||| i3),
          INVERT ((i4 <<< 3) ||| (i5 <<< 2) ||| (i6 <<< 1) ||| i7) with
    | some order, some invert =>
      .ok (place3 order
        (applyInvert invert.1 (everyThird payload))
        (applyInvert invert.2.1 (everyThird (payload.drop 1)))
        (applyInvert invert.2.2 (everyThird (payload.drop 2))))
    | _, _ => .error (.valueError "Illegal value for ternary bit")
  | _, _, _, _, _, _, _, _ => .error .indexError

/-- Models `secplus._v2_scramble`.  Here the table lookups are not wrapped
in a `try`, so an illegal key escapes as a bare `KeyError`. -/
def v2_scramble (indicator : List Nat) (parts : List Nat × List Nat × List Nat) :
    Except PyErr (List Nat) :=
  match pyGet indicator 0, pyGet indicator 1, pyGet indicator 2, pyGet indicator 3,
        pyGet indicator 4, pyGet indicator 5, pyGet indicator 6, pyGet indicator 7 with
  | .ok i0, .ok i1, .ok i2, .ok i3, .ok i4, .ok i5, .ok i6, .ok i7 =>
    match ORDER ((i0 <<< 3) ||| (i1 <<< 2) ||| (i2 <<< 1) ||| i3) with
    | none => .error .keyError
    | some order =>
      match INVERT ((i4 <<< 3) ||| (i5 <<< 2) ||| (i6 <<< 1) ||| i7) with
      | none => .error .keyError
      | some invert =>
        interleave3 (applyInvert invert.1 (sel3 parts order.1))
                    (applyInvert invert.2.1 (sel3 parts order.2.1))
                    (applyInvert invert.2.2 (sel3 parts order.2.2))
  | _, _, _, _, _, _, _, _ => .error .indexError

/-- The two 4-bit selector keys of an 8-bit indicator, as computed by the
source (`(indicator[0] << 3) | (indicator[1] << 2) | ...`). -/
def indKeys (ind : List Nat) : Nat × Nat :=
  ((ind.getD 0 0 <<< 3) ||| (ind.getD 1 0 <<< 2) ||| (ind.getD 2 0 <<< 1) ||| ind.getD 3 0,
   (ind.getD 4 0 <<< 3) ||| (ind.getD 5 0 <<< 2) ||| (ind.getD 6 0 <<< 1) ||| ind.getD 7 0)

theorem applyInvert_applyInvert (b : Bool) (l : List Nat) :
    applyInvert b (applyInvert b l) = l := by
  cases b with
  | false => simp [applyInvert]
  | true =>
    simp only [applyInvert, if_true, List.map_map]
    have h : ((fun bit => bit ^^^ 1) ∘ fun bit => bit ^^^ 1) = (id : Nat → Nat) := by
      funext x
      simp [Function.comp, Nat.xor_assoc]
    rw [h, List.map_id]

theorem length_applyInvert (b : Bool) (l : List Nat) :
    (applyInvert b l).length = l.length := by
  cases b <;> simp [applyInvert]

theorem mem_applyInvert_lt (b : Bool) (l : List Nat) (hl : ∀ y ∈ l, y < 2) :
    ∀ x ∈ applyInvert b l, x < 2 := by
  cases b with
  | false => simpa [applyInvert] using hl
  | true =>
    intro x hx
    simp only [applyInvert, if_true, List.mem_map] at hx
    obtain ⟨y, hy, rfl⟩ := hx
    have := hl y hy
    interval_cases y <;> decide

theorem everyThird_cons (c : Nat) (rest : List Nat) :
    everyThird (c :: rest) = c :: everyThird (rest.drop 2) := by
  match rest with
  | [] => rfl
  | [_] => rfl
  | _ :: _ :: _ => rfl

theorem interleave3_spec : ∀ (a b c : List Nat), a.length = b.length → a.length = c.length →
    ∃ pl, interleave3 a b c = .ok pl ∧ pl.length = 3 * a.length ∧
      everyThird pl = a ∧ everyThird (pl.drop 1) = b ∧ everyThird (pl.drop 2) = c ∧
      ∀ x ∈ pl, x ∈ a ∨ x ∈ b ∨ x ∈ c := by
  intro a
  induction a with
  | nil =>
    intro b c hb hc
    have hb0 : b = [] := by
      cases b
      · rfl
      · simp at hb
    have hc0 : c = [] := by
      cases c
      · rfl
      · simp at hc
    subst hb0; subst hc0
    exact ⟨[], rfl, rfl, rfl, rfl, rfl, by simp⟩
  | cons x xs ih =>
    intro b c hb hc
    rcases b with _ | ⟨y, ys⟩
    · simp at hb
    rcases c with _ | ⟨z, zs⟩
    · simp at hc
    obtain ⟨pl, h1, h2, h3, h4, h5, h6⟩ := ih ys zs (by simpa using hb) (by simpa using hc)
    refine ⟨x :: y :: z :: pl, ?_, ?_, ?_, ?_, ?_, ?_⟩
    · simp only [interleave3, h1]
    · simp only [List.length_cons, h2]; omega
    · rw [everyThird_cons]
      simp only [List.drop_succ_cons, List.drop_zero, h3]
    · simp only [List.drop_succ_cons, List.drop_zero]
      rw [everyThird_cons]
      simp only [List.drop_succ_cons, List.drop_zero, h4]
    · simp only [List.drop_succ_cons, List.drop_zero]
      rw [everyThird_cons]
      simp only [h5]
    · intro u hu
      simp only [List.mem_cons] at hu ⊢
      rcases hu with rfl | rfl | rfl | hu
      · exact Or.inl (Or.inl rfl)
      · exact Or.inr (Or.inl (Or.inl rfl))
      · exact Or.inr (Or.inr (Or.inl rfl))
      · rcases h6 u hu with h | h | h
        · exact Or.inl (Or.inr h)
        · exact Or.inr (Or.inl (Or.inr h))
        · exact Or.inr (Or.inr (Or.inr h))

theorem interleave3_everyThird (pl : List Nat) (h : pl.length % 3 = 0) :
    interleave3 (everyThird pl) (everyThird (pl.drop 1)) (everyThird (pl.drop 2)) = .ok pl := by
  suffices H : ∀ n (l : List Nat), l.length ≤ n → l.length % 3 = 0 →
      interleave3 (everyThird l) (everyThird (l.drop 1)) (everyThird (l.drop 2)) = .ok l from
    H pl.length pl (Nat.le_refl _) h
  intro n
  induction n with
  | zero =>
    intro l h1 h2
    have : l = [] := by
      cases l
      · rfl
      · simp at h1
    subst this
    rfl
  | succ k ih =>
    intro l h1 h2
    rcases l with _ | ⟨a, _ | ⟨b, _ | ⟨c, rest⟩⟩⟩
    · rfl
    · simp at h2
    · simp at h2
    · have hr1 : rest.length ≤ k := by simp at h1; omega
      have hr2 : rest.length % 3 = 0 := by simp at h2; omega
      rw [everyThird_cons a]
      simp only [List.drop_succ_cons, List.drop_zero]
      rw [everyThird_cons b, everyThird_cons c]
      simp only [List.drop_succ_cons, List.drop_zero]
      simp only [interleave3, ih rest hr1 hr2]

theorem sel3_length (p : List Nat × List Nat × List Nat) (i : Nat)
    (l01 : p.1.length = p.2.1.length) (l02 : p.1.length = p.2.2.length) :
    (sel3 p i).length = p.1.length := by
  rcases i with _ | _ | i <;> simp [sel3] <;> omega

theorem ORDER_place3_sel3 (k : Nat) (o : Nat × Nat × Nat) (h : ORDER k = some o)
    (p : List Nat × List Nat × List Nat) :
    place3 o (sel3 p o.1) (sel3 p o.2.1) (sel3 p o.2.2) = p := by
  unfold ORDER at h
  split at h <;>
    first
      | exact Option.noConfusion h
      | (subst h; simp [place3, sel3])
      | (injection h with h; subst h; simp [place3, sel3])

theorem ORDER_sel3_place3 (k : Nat) (o : Nat × Nat × Nat) (h : ORDER k = some o)
    (a b c : List Nat) :
    sel3 (place3 o a b c) o.1 = a ∧ sel3 (place3 o a b c) o.2.1 = b ∧
      sel3 (place3 o a b c) o.2.2 = c := by
  unfold ORDER at h
  split at h <;>
    first
      | exact Option.noConfusion h
      | (subst h; simp [place3, sel3])
      | (injection h with h; subst h; simp [place3, sel3])

/-- Scramble succeeds for a legal indicator and equal-length parts, and
unscramble inverts it; the payload length is three times the part
length and its entries come from the (possibly inverted) parts. -/
theorem unscramble_scramble (ind : List Nat) (ord : Nat × Nat × Nat) (inv : Bool × Bool × Bool)
    (p : List Nat × List Nat × List Nat)
    (h8 : 8 ≤ ind.length)
    (ho : ORDER (indKeys ind).1 = some ord) (hi : INVERT (indKeys ind).2 = some inv)
    (l01 : p.1.length = p.2.1.length) (l02 : p.1.length = p.2.2.length) :
    ∃ pl, v2_scramble ind p = .ok pl ∧ pl.length = 3 * p.1.length ∧
      ((∀ y ∈ p.1, y < 2) → (∀ y ∈ p.2.1, y < 2) → (∀ y ∈ p.2.2, y < 2) →
        ∀ x ∈ pl, x < 2) ∧
      v2_unscramble ind pl = .ok p := by
  simp only [indKeys] at ho hi
  have isp := interleave3_spec
    (applyInvert inv.1 (sel3 p ord.1))
    (applyInvert inv.2.1 (sel3 p ord.2.1))
    (applyInvert inv.2.2 (sel3 p ord.2.2))
    (by simp [length_applyInvert, sel3_length p _ l01 l02])
    (by simp [length_applyInvert, sel3_length p _ l01 l02])
  obtain ⟨pl, h1, h2, h3, h4, h5, h6⟩ := isp
  refine ⟨pl, ?_, ?_, ?_, ?_⟩
  · simp only [v2_scramble, pyGet_eq_ok ind 0 (by omega), pyGet_eq_ok ind 1 (by omega),
      pyGet_eq_ok ind 2 (by omega), pyGet_eq_ok ind 3 (by omega),
      pyGet_eq_ok ind 4 (by omega), pyGet_eq_ok ind 5 (by omega),
      pyGet_eq_ok ind 6 (by omega), pyGet_eq_ok ind 7 (by omega), ho, hi]
    exact h1
  · rw [h2, length_applyInvert, sel3_length p _ l01 l02]
  · intro b0 b1 b2 x hx
    have hsel : ∀ i, ∀ y ∈ sel3 p i, y < 2 := by
      intro i
      rcases i with _ | _ | i
      · exact b0
      · exact b1
      · exact b2
    rcases h6 x hx with h | h | h
    · exact mem_applyInvert_lt _ _ (hsel ord.1) x h
    · exact mem_applyInvert_lt _ _ (hsel ord.2.1) x h
    · exact mem_applyInvert_lt _ _ (hsel ord.2.2) x h
  · simp only [v2_unscramble, pyGet_eq_ok ind 0 (by omega), pyGet_eq_ok ind 1 (by omega),
      pyGet_eq_ok ind 2 (by omega), pyGet_eq_ok ind 3 (by omega),
      pyGet_eq_ok ind 4 (by omega), pyGet_eq_ok ind 5 (by omega),
      pyGet_eq_ok ind 6 (by omega), pyGet_eq_ok ind 7 (by omega), ho, hi]
    rw [h3, h4, h5, applyInvert_applyInvert, applyInvert_applyInvert, applyInvert_applyInvert]
    rw [ORDER_place3_sel3 _ _ ho p]

/-- Unscramble followed by scramble restores any payload whose length is a
multiple of three, for a legal indicator. -/
theorem scramble_unscramble (ind : List Nat) (ord : Nat × Nat × Nat) (inv : Bool × Bool × Bool)
    (pl : List Nat) (h8 : 8 ≤ ind.length)
    (ho : ORDER (indKeys ind).1 = some ord) (hi : INVERT (indKeys ind).2 = some inv)
    (h3 : pl.length % 3 = 0) :
    (v2_unscramble ind pl).bind (fun parts => v2_scramble ind parts) = .ok pl := by
  simp only [indKeys] at ho hi
  have hun : v2_unscramble ind pl = .ok (place3 ord
      (applyInvert inv.1 (everyThird pl))
      (applyInvert inv.2.1 (everyThird (pl.drop 1)))
      (applyInvert inv.2.2 (everyThird (pl.drop 2)))) := by
    simp only [v2_unscramble, pyGet_eq_ok ind 0 (by omega), pyGet_eq_ok ind 1 (by omega),
      pyGet_eq_ok ind 2 (by omega), pyGet_eq_ok ind 3 (by omega),
      pyGet_eq_ok ind 4 (by omega), pyGet_eq_ok ind 5 (by omega),
      pyGet_eq_ok ind 6 (by omega), pyGet_eq_ok ind 7 (by omega), ho, hi]
  rw [hun]
  obtain ⟨s1, s2, s3⟩ := ORDER_sel3_place3 _ _ ho
    (applyInvert inv.1 (everyThird pl))
    (applyInvert inv.2.1 (everyThird (pl.drop 1)))
    (applyInvert inv.2.2 (everyThird (pl.drop 2)))
  show v2_scramble ind _ = .ok pl
  simp only [v2_scramble, pyGet_eq_ok ind 0 (by omega), pyGet_eq_ok ind 1 (by omega),
    pyGet_eq_ok ind 2 (by omega), pyGet_eq_ok ind 3 (by omega),
    pyGet_eq_ok ind 4 (by omega), pyGet_eq_ok ind 5 (by omega),
    pyGet_eq_ok ind 6 (by omega), pyGet_eq_ok ind 7 (by omega), ho, hi]
  rw [s1, s2, s3, applyInvert_applyInvert, applyInvert_applyInvert, applyInvert_applyInvert]
  exact interleave3_everyThird pl h3

/-- C3: for every indicator with legal permutation and inversion selector
keys, scrambling is a bijection: unscramble inverts scramble on all
triples of equal-length parts (covering the packet type 0 and 1 shapes),
and scramble inverts unscramble on every payload whose length is a
multiple of three. -/
theorem c3_scrambling_bijection (ind : List Nat) (ord : Nat × Nat × Nat)
    (inv : Bool × Bool × Bool) (h8 : 8 ≤ ind.length)
    (ho : ORDER (indKeys ind).1 = some ord) (hi : INVERT (indKeys ind).2 = some inv) :
    (∀ p : List Nat × List Nat × List Nat,
      p.1.length = p.2.1.length → p.1.length = p.2.2.length →
      (v2_scramble ind p).bind (v2_unscramble ind) = .ok p) ∧
    (∀ pl : List Nat, pl.length % 3 = 0 →
      (v2_unscramble ind pl).bind (fun parts => v2_scramble ind parts) = .ok pl) := by
  constructor
  · intro p l01 l02
    obtain ⟨pl, h1, _, _, h4⟩ := unscramble_scramble ind ord inv p h8 ho hi l01 l02
    rw [h1]
    exact h4
  · intro pl h3
    exact scramble_unscramble ind ord inv pl h8 ho hi h3

/-- C3 witness: concrete round trips through the scrambler for the legal
all-zero indicator. -/
theorem c3_scrambling_bijection_witness :
    (v2_scramble (List.replicate 8 0) ([0], [1], [0])).bind
        (v2_unscramble (List.replicate 8 0)) = .ok ([0], [1], [0]) ∧
    (v2_unscramble (List.replicate 8 0) [0, 1, 1]).bind
        (fun parts => v2_scramble (List.replicate 8 0) parts) = .ok [0, 1, 1] :=
  ⟨(c3_scrambling_bijection (List.replicate 8 0) (0, 2, 1) (true, true, false)
      (by decide) (by decide) (by decide)).1 ([0], [1], [0]) rfl rfl,
   (c3_scrambling_bijection (List.replicate 8 0) (0, 2, 1) (true, true, false)
      (by decide) (by decide) (by decide)).2 [0, 1, 1] (by decide)⟩

/-! ### v2 packet codec -/

/-- The Python loops that emit `digit >> 1, digit & 1` per ternary digit
(indicator construction and `parts[2]` construction). -/
def digitBits (l : List Nat) : List Nat :=
  l.flatMap (fun d => [d >>> 1, d &&& 1])

/-- The Python loops `for i in range(0, len(l), 2): out.append((l[i] << 1) | l[i+1])`;
an odd-length list raises `IndexError` on the last pair. -/
def pairDigits : List Nat → Except PyErr (List Nat)
  | [] => .ok []
  | [_] => .error .indexError
  | a :: b :: rest =>
    match pairDigits rest with
    | .ok r => .ok (((a <<< 1) ||| b) :: r)
    | .error e => .error e

/-- Models `int("".join(str(bit) for bit in l), 2)` for a list of bits. -/
def intOfBits (l : List Nat) : Nat := valMSB 2 l

/-- Models `secplus._decode_v2_half_parts`. -/
def decode_v2_half_parts (packet_type : Nat) (indicator payload : List Nat) :
    Except PyErr (List Nat × List Nat × Option (List Nat)) :=
  match (match packet_type with
         | 0 => Except.ok 30
         | 1 => Except.ok 54
         | 2 => Except.error (PyErr.valueError "Unsupported packet type")
         | _ => Except.error (PyErr.valueError "Invalid packet type")) with
  | .error e => .error e
  | .ok payload_length =>
    if payload.length ≠ payload_length then .error (.valueError "Incorrect payload length")
    else
      match v2_unscramble indicator payload with
      | .error e => .error e
      | .ok parts =>
        match pairDigits indicator, pairDigits parts.2.2 with
        | .ok ri, .ok rp =>
          let rolling := ri ++ rp
          if 3 ∈ rolling then .error (.valueError "Illegal value for ternary bit")
          else
            let fixed := parts.1.take 10 ++ parts.2.1.take 10
            if packet_type = 0 then .ok (rolling, fixed, none)
            else if rolling.take 4 ≠ rolling.drop (rolling.length - 4) then
              .error (.valueError "Last four ternary bits do not repeat first four")
            else
              .ok (rolling.take (rolling.length - 4), fixed,
                   some (parts.1.drop 10 ++ parts.2.1.drop 10))
        | .error e, _ => .error e
        | _, .error e => .error e

/-- Models `secplus._decode_v2_half`: first two bits select the packet
type, the next eight are the indicator, the rest is the payload. -/
def decode_v2_half (code : List Nat) :
    Except PyErr (List Nat × List Nat × Option (List Nat)) :=
  match pyGet code 0, pyGet code 1 with
  | .ok c0, .ok c1 =>
    decode_v2_half_parts ((c0 <<< 1) ||| c1) ((code.drop 2).take 8) (code.drop 10)
  | _, _ => .error .indexError

/-- Models `secplus._decode_v2_rolling`: reassemble the 18 base-3 rolling
digits from the two half fragments, reject values at or above `2^28`, and
bit-reverse the result over 28 bits. -/
def decode_v2_rolling (rolling1 rolling2 : List Nat) : Except PyErr Nat :=
  let rolling_digits :=
    rolling2.drop 8 ++ rolling1.drop 8 ++
    ((rolling2.drop 4).take 4 ++ (rolling1.drop 4).take 4) ++
    (rolling2.take 4 ++ rolling1.take 4)
  let rolling := rolling_digits.foldl (fun acc d => acc * 3 + d) 0
  if rolling ≥ 2 ^ 28 then .error (.valueError "Rolling code was not in expected range")
  else .ok (pyRevPad 28 rolling)

/-- Models `secplus._encode_v2_rolling`: bit-reverse the rolling code over
28 bits, expand to 18 base-3 digits (most significant first), and slice
the protocol-defined index ranges into the two half fragments. -/
def encode_v2_rolling (rolling : Nat) : List Nat × List Nat :=
  let r := pyRevPad 28 rolling
  let rolling_base3 := (digitsLSB 3 18 r).reverse
  ((rolling_base3.drop 14).take 4 ++ (rolling_base3.drop 6).take 4 ++
     (rolling_base3.drop 1).take 1,
   (rolling_base3.drop 10).take 4 ++ (rolling_base3.drop 2).take 4 ++
     rolling_base3.take 1)

/-- Models `secplus.decode_v2`. -/
def decode_v2 (code : List Nat) : Except PyErr (Nat × Nat × Option Nat) :=
  match decode_v2_half (code.take (code.length / 2)),
        decode_v2_half (code.drop (code.length / 2)) with
  | .ok (r1, f1, d1), .ok (_r2, f2, d2) =>
    match decode_v2_rolling r1 _r2 with
    | .error e => .error e
    | .ok rolling =>
      let fixed := intOfBits (f1 ++ f2)
      match d1 with
      | none => .ok (rolling, fixed, none)
      | some dd1 =>
        -- `data2` cannot be `None` here: both halves have the same length,
        -- so the payload-length check forces the same packet type.
        .ok (rolling, fixed, some (intOfBits (dd1 ++ d2.getD [])))
  | .error e, _ => .error e
  | _, .error e => .error e

/-- Models `secplus._decode_wireline_half`: bits 8 and 9 must be the
`[0, 0]` framing marker; packet type is forced to 1. -/
def decode_wireline_half (code : List Nat) :
    Except PyErr (List Nat × List Nat × Option (List Nat)) :=
  if (code.drop 8).take 2 ≠ [0, 0] then
    .error (.valueError "Unexpected values for bits 8 and 9")
  else decode_v2_half_parts 1 (code.take 8) (code.drop 10)

/-- The Python loop `for bit in range(7, -1, -1): bits.append((b >> bit) & 1)`. -/
def byteBits (b : Nat) : List Nat :=
  [(b >>> 7) &&& 1, (b >>> 6) &&& 1, (b >>> 5) &&& 1, (b >>> 4) &&& 1,
   (b >>> 3) &&& 1, (b >>> 2) &&& 1, (b >>> 1) &&& 1, (b >>> 0) &&& 1]

/-- A Python object passed to `decode_wireline`: a `bytes` value (a list of
byte values) or any non-`bytes` object, which fails the `isinstance`
check. -/
inductive PyObj where
  | bytes (b : List Nat)
  | other (tag : String)

/-- Models `secplus.decode_wireline`. -/
def decode_wireline (code : PyObj) : Except PyErr (Nat × Nat × Nat) :=
  match code with
  | .other _ => .error (.valueError "Input must be bytes")
  | .bytes code =>
    if code.length ≠ 19 then .error (.valueError "Input must be 19 bytes long")
    else if code.take 3 ≠ [0x55, 0x01, 0x00] then
      .error (.valueError "First three bytes must be 0x55, 0x01, 0x00")
    else
      let code_bits := (code.drop 3).flatMap byteBits
      match decode_wireline_half (code_bits.take 64),
            decode_wireline_half (code_bits.drop 64) with
      | .ok (r1, f1, d1), .ok (_r2, f2, d2) =>
        match decode_v2_rolling r1 _r2 with
        | .error e => .error e
        | .ok rolling =>
          -- `data1`/`data2` are always present for packet type 1.
          .ok (rolling, intOfBits (f1 ++ f2), intOfBits (d1.getD [] ++ d2.getD []))
      | .error e, _ => .error e
      | _, .error e => .error e

/-- Models `secplus._encode_v2_half_parts`: build the indicator from the
first four rolling digits, the three parts from fixed, data, and the
remaining rolling digits, and scramble. -/
def encode_v2_half_parts (rolling fixed : List Nat) (data : Option (List Nat)) :
    Except PyErr (Nat × List Nat × List Nat) :=
  let indicator := digitBits (rolling.take 4)
  match data with
  | none =>
    match v2_scramble indicator
        (fixed.take 10, fixed.drop 10, digitBits (rolling.drop 4)) with
    | .error e => .error e
    | .ok payload => .ok (0, indicator, payload)
  | some db =>
    match v2_scramble indicator
        (fixed.take 10 ++ db.take 8, fixed.drop 10 ++ db.drop 8,
         digitBits (rolling.drop 4) ++ digitBits (rolling.take 4)) with
    | .error e => .error e
    | .ok payload => .ok (1, indicator, payload)

/-- Models `secplus._encode_v2_half`. -/
def encode_v2_half (rolling fixed : List Nat) (data : Option (List Nat)) :
    Except PyErr (List Nat) :=
  match encode_v2_half_parts rolling fixed data with
  | .error e => .error e
  | .ok (packet_type, indicator, payload) =>
    .ok ([packet_type >>> 1, packet_type &&& 1] ++ indicator ++ payload)

/-- Models `secplus._v2_check_limits`. -/
def v2_check_limits (rolling fixed : Nat) (data : Option Nat) : Except PyErr Unit :=
  if rolling ≥ 2 ^ 28 then .error (.valueError "Rolling code must be less than 2^28")
  else if fixed ≥ 2 ^ 40 then .error (.valueError "Fixed code must be less than 2^40")
  else
    match data with
    | some d =>
      if d ≥ 2 ^ 32 then .error (.valueError "Data must be less than 2^32") else .ok ()
    | none => .ok ()

/-- Models `secplus.encode_v2`. -/
def encode_v2 (rolling fixed : Nat) (data : Option Nat) : Except PyErr (List Nat) :=
  match v2_check_limits rolling fixed data with
  | .error e => .error e
  | .ok _ =>
    let rp := encode_v2_rolling rolling
    let fixed_bits := (digitsLSB 2 40 fixed).reverse
    match data with
    | none =>
      match encode_v2_half rp.1 (fixed_bits.take 20) none,
            encode_v2_half rp.2 (fixed_bits.drop 20) none with
      | .ok h1, .ok h2 => .ok (h1 ++ h2)
      | .error e, _ => .error e
      | _, .error e => .error e
    | some d =>
      let data_bits := (digitsLSB 2 32 d).reverse
      match encode_v2_half rp.1 (fixed_bits.take 20) (some (data_bits.take 16)),
            encode_v2_half rp.2 (fixed_bits.drop 20) (some (data_bits.drop 16)) with
      | .ok h1, .ok h2 => .ok (h1 ++ h2)
      | .error e, _ => .error e
      | _, .error e => .error e

/-- Models `secplus._encode_wireline_half`: the indicator, the `[0, 0]`
marker, then the scrambled payload. -/
def encode_wireline_half (rolling fixed : List Nat) (data : List Nat) :
    Except PyErr (List Nat) :=
  match encode_v2_half_parts rolling fixed (some data) with
  | .error e => .error e
  | .ok (_, indicator, payload) => .ok (indicator ++ [0, 0] ++ payload)

/-- The byte-packing loop of `encode_wireline`: consume eight bits at a
time, most significant first; a trailing group of fewer than eight bits is
dropped (`range(len(payload_bits) // 8)`). -/
def packBytes : List Nat → List Nat
  | b0 :: b1 :: b2 :: b3 :: b4 :: b5 :: b6 :: b7 :: rest =>
    ((b0 <<< 7) ||| (b1 <<< 6) ||| (b2 <<< 5) ||| (b3 <<< 4) |||
     (b4 <<< 3) ||| (b5 <<< 2) ||| (b6 <<< 1) ||| (b7 <<< 0)) :: packBytes rest
  | _ => []

/-- Models `secplus.encode_wireline`. -/
def encode_wireline (rolling fixed data : Nat) : Except PyErr (List Nat) :=
  match v2_check_limits rolling fixed (some data) with
  | .error e => .error e
  | .ok _ =>
    let rp := encode_v2_rolling rolling
    let fixed_bits := (digitsLSB 2 40 fixed).reverse
    let data_bits := (digitsLSB 2 32 data).reverse
    match encode_wireline_half rp.1 (fixed_bits.take 20) (data_bits.take 16),
          encode_wireline_half rp.2 (fixed_bits.drop 20) (data_bits.drop 16) with
    | .ok h1, .ok h2 => .ok ([0x55, 0x01, 0x00] ++ packBytes (h1 ++ h2))
    | .error e, _ => .error e
    | _, .error e => .error e

/-- Models `secplus._manchester`: `0` becomes `[1, 0]`, anything else
becomes `[0, 1]`. -/
def manchester (code : List Nat) : List Nat :=
  code.flatMap (fun bit => if bit = 0 then [1, 0] else [0, 1])

/-- The fixed 20-bit preamble of `encode_v2_manchester`. -/
def v2_preamble : List Nat :=
  [0, 0, 0, 0, 0, 0, 0, 0, 0, 0, 0, 0, 0, 0, 0, 0, 1, 1, 1, 1]

/-- Models `secplus.encode_v2_manchester`. -/
def encode_v2_manchester (rolling fixed : Nat) (data : Option Nat) :
    Except PyErr (List Nat) :=
  match encode_v2 rolling fixed data with
  | .error e => .error e
  | .ok code =>
    let half_len := code.length / 2
    .ok (manchester (v2_preamble ++ [0, 0] ++ code.take half_len) ++
         List.replicate 33 0 ++
         manchester (v2_preamble ++ [0, 1] ++ code.drop half_len) ++
         List.replicate 33 0)

/-- C9: every non-`bytes` input to `decode_wireline` is rejected with the
typed `ValueError("Input must be bytes")`, before any length or header
check (the result does not depend on anything but the failed `isinstance`
check). -/
theorem c9_wireline_rejects_non_bytes (tag : String) :
    decode_wireline (.other tag) = .error (.valueError "Input must be bytes") := rfl

/-- C6 counterexample: the one-byte input `[0x00]` does not start with
`0x55 0x01 0x00`, yet `decode_wireline` raises the length error, not the
framing-mismatch error, so the claimed behaviour "regardless of the
input's length" is false. -/
theorem c6_counterexample_length_error_first :
    decode_wireline (.bytes [0]) = .error (.valueError "Input must be 19 bytes long") ∧
      PyErr.valueError "Input must be 19 bytes long" ≠
        PyErr.valueError "First three bytes must be 0x55, 0x01, 0x00" := by
  constructor
  · rfl
  · decide

/-- C6 amended: for every 19-byte input that does not start with
`0x55 0x01 0x00`, `decode_wireline` raises the framing-mismatch error;
inputs of any other length fail the preceding length check instead. -/
theorem c6_amended_header_error_for_19_bytes (b : List Nat)
    (hlen : b.length = 19) (hhdr : b.take 3 ≠ [0x55, 0x01, 0x00]) :
    decode_wireline (.bytes b) =
      .error (.valueError "First three bytes must be 0x55, 0x01, 0x00") := by
  simp only [decode_wireline]
  rw [if_neg (by omega), if_pos hhdr]

/-- C6 witness: a concrete all-zero 19-byte frame hits the header error. -/
theorem c6_amended_header_error_witness :
    decode_wireline (.bytes (List.replicate 19 0)) =
      .error (.valueError "First three bytes must be 0x55, 0x01, 0x00") :=
  c6_amended_header_error_for_19_bytes (List.replicate 19 0) (by decide) (by decide)

/-- C7 counterexample: with the indicator key `0b0011`, `_v2_scramble`
raises a bare `KeyError` (not a typed illegal-indicator error), and
`_v2_unscramble` raises `ValueError("Illegal value for ternary bit")` —
the very same error value that the illegal-digit check in
`_decode_v2_half_parts` raises — so the illegal-indicator failure is not
distinguishable as an error kind from the illegal-digit failure. -/
theorem c7_counterexample_error_kinds_conflated :
    v2_scramble [0, 0, 1, 1, 0, 0, 0, 0] ([0], [0], [0]) = .error .keyError ∧
    v2_unscramble [0, 0, 1, 1, 0, 0, 0, 0] [0, 0, 0] =
      .error (.valueError "Illegal value for ternary bit") ∧
    decode_v2_half_parts 0 (List.replicate 8 0) (List.replicate 30 0) =
      .error (.valueError "Illegal value for ternary bit") := by
  refine ⟨rfl, rfl, ?_⟩
  rfl

/-- C7 amended: for every indicator whose permutation selector is not
among the nine legal keys (such as `0b0011`), both operations fail when
their length preconditions hold — scramble with an uncaught `KeyError`
and unscramble with `ValueError("Illegal value for ternary bit")`, the
same error value the illegal-digit check raises — so the two failures are
not distinguishable error kinds. -/
theorem c7_amended_illegal_indicator_errors (ind : List Nat)
    (parts : List Nat × List Nat × List Nat) (payload : List Nat)
    (h8 : 8 ≤ ind.length) (hk : ORDER (indKeys ind).1 = none) :
    v2_scramble ind parts = .error .keyError ∧
    v2_unscramble ind payload = .error (.valueError "Illegal value for ternary bit") := by
  simp only [indKeys] at hk
  constructor
  · simp only [v2_scramble, pyGet_eq_ok ind 0 (by omega), pyGet_eq_ok ind 1 (by omega),
      pyGet_eq_ok ind 2 (by omega), pyGet_eq_ok ind 3 (by omega),
      pyGet_eq_ok ind 4 (by omega), pyGet_eq_ok ind 5 (by omega),
      pyGet_eq_ok ind 6 (by omega), pyGet_eq_ok ind 7 (by omega), hk]
  · simp only [v2_unscramble, pyGet_eq_ok ind 0 (by omega), pyGet_eq_ok ind 1 (by omega),
      pyGet_eq_ok ind 2 (by omega), pyGet_eq_ok ind 3 (by omega),
      pyGet_eq_ok ind 4 (by omega), pyGet_eq_ok ind 5 (by omega),
      pyGet_eq_ok ind 6 (by omega), pyGet_eq_ok ind 7 (by omega), hk]

/-- C7 witness: the amended statement at the concrete indicator `0b0011`. -/
theorem c7_amended_illegal_indicator_errors_witness :
    v2_scramble [0, 0, 1, 1, 0, 0, 0, 0] ([1], [0], [1]) = .error .keyError ∧
    v2_unscramble [0, 0, 1, 1, 0, 0, 0, 0] [1, 0, 1] =
      .error (.valueError "Illegal value for ternary bit") :=
  c7_amended_illegal_indicator_errors [0, 0, 1, 1, 0, 0, 0, 0] ([1], [0], [1]) [1, 0, 1]
    (by decide) (by decide)

/-- C8: whenever `encode_v2` succeeds, `encode_v2_manchester` returns the
Manchester expansion (`0` to `[1,0]`, `1` to `[0,1]`) of the 20-bit
preamble, the half-index marker (`00` / `01`) and the corresponding half
of `encode_v2`'s output, each half followed by a 33-bit silence gap. -/
theorem c8_manchester_framing (rolling fixed : Nat) (data : Option Nat) (code : List Nat)
    (h : encode_v2 rolling fixed data = .ok code) :
    encode_v2_manchester rolling fixed data =
      .ok (manchester (v2_preamble ++ [0, 0] ++ code.take (code.length / 2)) ++
           List.replicate 33 0 ++
           manchester (v2_preamble ++ [0, 1] ++ code.drop (code.length / 2)) ++
           List.replicate 33 0) := by
  simp only [encode_v2_manchester, h]

/-- The 80-bit output of `encode_v2 1 2 none`, used as a concrete framing
example. -/
def c8_code : List Nat :=
  [0, 0, 1, 0, 1, 0, 1, 0, 1, 0, 1, 0, 1, 1, 0, 0, 1, 0, 1, 1,
   0, 0, 1, 0, 0, 1, 0, 1, 1, 0, 0, 1, 0, 1, 1, 0, 1, 1, 0, 1,
   0, 0, 1, 0, 1, 0, 0, 0, 0, 0, 1, 1, 0, 1, 1, 0, 1, 1, 0, 1,
   1, 1, 1, 1, 0, 1, 1, 0, 1, 1, 0, 1, 1, 0, 1, 0, 0, 1, 1, 1]

/-- C8 witness: the Manchester framing equation at a concrete input. -/
theorem c8_manchester_framing_witness :
    encode_v2_manchester 1 2 none =
      .ok (manchester (v2_preamble ++ [0, 0] ++ c8_code.take (c8_code.length / 2)) ++
           List.replicate 33 0 ++
           manchester (v2_preamble ++ [0, 1] ++ c8_code.drop (c8_code.length / 2)) ++
           List.replicate 33 0) :=
  c8_manchester_framing 1 2 none c8_code (by rfl)

/-! ### Round-trip lemmas for the v2 codec -/

theorem digitBits_cons (d : Nat) (t : List Nat) :
    digitBits (d :: t) = (d >>> 1) :: (d &&& 1) :: digitBits t := by
  simp [digitBits]

theorem digitBits_append (a b : List Nat) :
    digitBits (a ++ b) = digitBits a ++ digitBits b := by
  simp [digitBits]

theorem length_digitBits : ∀ l : List Nat, (digitBits l).length = 2 * l.length := by
  intro l
  induction l with
  | nil => rfl
  | cons d t ih =>
    rw [digitBits_cons]
    simp only [List.length_cons, ih]
    omega

theorem mem_digitBits_lt : ∀ l : List Nat, (∀ d ∈ l, d < 4) → ∀ x ∈ digitBits l, x < 2 := by
  intro l
  induction l with
  | nil => intro _ x hx; simp [digitBits] at hx
  | cons d t ih =>
    intro h x hx
    rw [digitBits_cons] at hx
    have hd : d < 4 := h d (by simp)
    simp only [List.mem_cons] at hx
    rcases hx with rfl | rfl | hx
    · have : d >>> 1 = d / 2 := Nat.shiftRight_eq_div_pow d 1 ▸ rfl
      omega
    · rw [Nat.and_one_is_mod]
      omega
    · exact ih (fun y hy => h y (by simp [hy])) x hx

theorem pair_of_digit_bits (d : Nat) (h : d < 4) :
    ((d >>> 1) <<< 1) ||| (d &&& 1) = d := by
  have : ∀ e < 4, ((e >>> 1) <<< 1) ||| (e &&& 1) = e := by decide
  exact this d h

theorem pairDigits_digitBits_append :
    ∀ (l : List Nat), (∀ d ∈ l, d < 4) → ∀ (rest r : List Nat),
      pairDigits rest = .ok r → pairDigits (digitBits l ++ rest) = .ok (l ++ r) := by
  intro l
  induction l with
  | nil => intro _ rest r h; simpa [digitBits] using h
  | cons d t ih =>
    intro h rest r hrest
    rw [digitBits_cons]
    have hd : d < 4 := h d (by simp)
    simp only [List.cons_append, pairDigits, List.append_eq]
    rw [ih (fun y hy => h y (by simp [hy])) rest r hrest]
    have hp : d >>> 1 <<< 1 ||| d % 2 = d := by
      have h4 : ∀ e, e < 4 → e >>> 1 <<< 1 ||| e % 2 = e := by decide
      exact h4 d hd
    simp [hp]

theorem pairDigits_digitBits (l : List Nat) (h : ∀ d ∈ l, d < 4) :
    pairDigits (digitBits l) = .ok l := by
  have := pairDigits_digitBits_append l h [] [] rfl
  simpa using this

/-- Every indicator built from four ternary digits hits legal keys in both
tables. -/
theorem indicator_keys_ok (d0 d1 d2 d3 : Nat)
    (h0 : d0 < 3) (h1 : d1 < 3) (h2 : d2 < 3) (h3 : d3 < 3) :
    ∃ ord inv, ORDER (indKeys (digitBits [d0, d1, d2, d3])).1 = some ord ∧
      INVERT (indKeys (digitBits [d0, d1, d2, d3])).2 = some inv := by
  have hdec : ∀ a < 3, ∀ b < 3, ∀ c < 3, ∀ e < 3,
      (ORDER (indKeys (digitBits [a, b, c, e])).1).isSome = true ∧
      (INVERT (indKeys (digitBits [a, b, c, e])).2).isSome = true := by decide
  obtain ⟨ho, hi⟩ := hdec d0 h0 d1 h1 d2 h2 d3 h3
  obtain ⟨ord, ho⟩ := Option.isSome_iff_exists.mp ho
  obtain ⟨inv, hi⟩ := Option.isSome_iff_exists.mp hi
  exact ⟨ord, inv, ho, hi⟩

/-- Full specification of the rolling-code split: fragment lengths and
digit ranges, and the join (`_decode_v2_rolling`) restores the rolling
code. -/
theorem encode_v2_rolling_spec (rolling : Nat) (h : rolling < 2 ^ 28) :
    (encode_v2_rolling rolling).1.length = 9 ∧
    (encode_v2_rolling rolling).2.length = 9 ∧
    (∀ x ∈ (encode_v2_rolling rolling).1, x < 3) ∧
    (∀ x ∈ (encode_v2_rolling rolling).2, x < 3) ∧
    decode_v2_rolling (encode_v2_rolling rolling).1 (encode_v2_rolling rolling).2 =
      .ok rolling := by
  have hpad : pyRevPad 28 rolling = pyRev 28 rolling := pyRevPad_eq 28 rolling h
  obtain ⟨d, hdd, hd18, hd3, hval⟩ :
      ∃ d, (digitsLSB 3 18 (pyRevPad 28 rolling)).reverse = d ∧ d.length = 18 ∧
        (∀ x ∈ d, x < 3) ∧ valMSB 3 d = pyRev 28 rolling := by
    refine ⟨_, rfl, by simp [length_digitsLSB], ?_, ?_⟩
    · intro x hx
      exact mem_digitsLSB_lt 3 (by omega) _ _ x (by simpa using hx)
    · rw [hpad, valMSB_digitsLSB_reverse 3 (by omega)]
      exact Nat.mod_eq_of_lt (lt_trans (pyRev_lt 28 rolling) (by norm_num))
  have hlt : pyRev 28 rolling < 2 ^ 28 := pyRev_lt 28 rolling
  have henc : encode_v2_rolling rolling =
      ((d.drop 14).take 4 ++ (d.drop 6).take 4 ++ (d.drop 1).take 1,
       (d.drop 10).take 4 ++ (d.drop 2).take 4 ++ d.take 1) := by
    simp only [encode_v2_rolling]
    rw [hdd]
  rw [henc]
  have l1 : ((d.drop 14).take 4).length = 4 := by simp [hd18]
  have l2 : ((d.drop 6).take 4).length = 4 := by simp [hd18]
  have l3 : ((d.drop 1).take 1).length = 1 := by simp [hd18]
  have l4 : ((d.drop 10).take 4).length = 4 := by simp [hd18]
  have l5 : ((d.drop 2).take 4).length = 4 := by simp [hd18]
  have l6 : (d.take 1).length = 1 := by simp [hd18]
  have hsub : ∀ (a b : Nat) (x : Nat), x ∈ (d.drop a).take b → x < 3 := by
    intro a b x hx
    exact hd3 x (List.drop_subset a d (List.take_subset b (d.drop a) hx))
  refine ⟨by simp [hd18] <;> omega, by simp [hd18] <;> omega, ?_, ?_, ?_⟩
  · intro x hx
    simp only [List.mem_append] at hx
    rcases hx with (hx | hx) | hx
    · exact hsub _ _ _ hx
    · exact hsub _ _ _ hx
    · exact hsub _ _ _ hx
  · intro x hx
    simp only [List.mem_append] at hx
    rcases hx with (hx | hx) | hx
    · exact hsub _ _ _ hx
    · exact hsub _ _ _ hx
    · exact hd3 x (List.take_subset 1 d hx)
  · simp only [decode_v2_rolling]
    have e1 : ((d.drop 10).take 4 ++ (d.drop 2).take 4 ++ d.take 1).drop 8 = d.take 1 :=
      List.drop_left' (by rw [List.length_append, l4, l5])
    have e2 : ((d.drop 14).take 4 ++ (d.drop 6).take 4 ++ (d.drop 1).take 1).drop 8 =
        (d.drop 1).take 1 :=
      List.drop_left' (by rw [List.length_append, l1, l2])
    have e3 : (((d.drop 10).take 4 ++ (d.drop 2).take 4 ++ d.take 1).drop 4).take 4 =
        (d.drop 2).take 4 := by
      rw [List.append_assoc, List.drop_left' l4, List.take_left' l5]
    have e4 : (((d.drop 14).take 4 ++ (d.drop 6).take 4 ++ (d.drop 1).take 1).drop 4).take 4 =
        (d.drop 6).take 4 := by
      rw [List.append_assoc, List.drop_left' l1, List.take_left' l2]
    have e5 : ((d.drop 10).take 4 ++ (d.drop 2).take 4 ++ d.take 1).take 4 =
        (d.drop 10).take 4 := by
      rw [List.append_assoc, List.take_left' l4]
    have e6 : ((d.drop 14).take 4 ++ (d.drop 6).take 4 ++ (d.drop 1).take 1).take 4 =
        (d.drop 14).take 4 := by
      rw [List.append_assoc, List.take_left' l1]
    rw [e1, e2, e3, e4, e5, e6]
    have hassemble : d.take 1 ++ (d.drop 1).take 1 ++
        ((d.drop 2).take 4 ++ (d.drop 6).take 4) ++
        ((d.drop 10).take 4 ++ (d.drop 14).take 4) = d := by
      have t1 : d.take 1 ++ (d.drop 1).take 1 = d.take 2 := by
        rw [show (2 : Nat) = 1 + 1 from rfl, List.take_add]
      have t2 : (d.drop 2).take 4 ++ (d.drop 6).take 4 = (d.drop 2).take 8 := by
        rw [show (8 : Nat) = 4 + 4 from rfl, List.take_add, List.drop_drop]
      have t3 : (d.drop 10).take 4 ++ (d.drop 14).take 4 = (d.drop 10).take 8 := by
        rw [show (8 : Nat) = 4 + 4 from rfl, List.take_add, List.drop_drop]
      rw [t1, t2, t3, List.append_assoc]
      rw [show (d.drop 2).take 8 ++ (d.drop 10).take 8 = (d.drop 2).take 16 by
        rw [show (16 : Nat) = 8 + 8 from rfl, List.take_add, List.drop_drop]]
      rw [show d.take 2 ++ (d.drop 2).take 16 = d.take 18 by
        rw [show (18 : Nat) = 2 + 16 from rfl, List.take_add]]
      exact List.take_of_length_le (by omega)
    rw [hassemble]
    have hfold : d.foldl (fun acc x => acc * 3 + x) 0 = valMSB 3 d := rfl
    rw [hfold, hval, if_neg (by omega)]
    rw [pyRevPad_eq 28 _ hlt, pyRev_pyRev 28 rolling h]

/-- Round trip of one packet half at the parts level, packet type 0
(no data). -/
theorem half_parts_roundtrip_none (r1 f1 : List Nat)
    (hr : r1.length = 9) (hd : ∀ x ∈ r1, x < 3) (hf : f1.length = 20) :
    ∃ pl,
      encode_v2_half_parts r1 f1 none = .ok (0, digitBits (r1.take 4), pl) ∧
      pl.length = 30 ∧
      ((∀ y ∈ f1, y < 2) → ∀ x ∈ pl, x < 2) ∧
      decode_v2_half_parts 0 (digitBits (r1.take 4)) pl = .ok (r1, f1, none) := by
  obtain ⟨d0, d1, d2, d3, r5, hr1⟩ :
      ∃ d0 d1 d2 d3 r5, r1 = d0 :: d1 :: d2 :: d3 :: r5 := by
    rcases r1 with _ | ⟨d0, _ | ⟨d1, _ | ⟨d2, _ | ⟨d3, r5⟩⟩⟩⟩
    · simp at hr
    · simp at hr
    · simp at hr
    · simp at hr
    · exact ⟨d0, d1, d2, d3, r5, rfl⟩
  subst hr1
  have hr5 : r5.length = 5 := by simp at hr; omega
  have hd5 : ∀ x ∈ r5, x < 4 := fun x hx => by have := hd x (by simp [hx]); omega
  obtain ⟨ord, inv, ho, hi⟩ := indicator_keys_ok d0 d1 d2 d3
    (hd d0 (by simp)) (hd d1 (by simp)) (hd d2 (by simp)) (hd d3 (by simp))
  obtain ⟨pl, hscr, hpllen, hbits, hunscr⟩ :=
    unscramble_scramble (digitBits [d0, d1, d2, d3]) ord inv
      (f1.take 10, f1.drop 10, digitBits r5)
      (by simp [length_digitBits]) ho hi
      (by simp [hf])
      (by simp [hf, length_digitBits, hr5])
  have hpl30 : pl.length = 30 := by
    rw [hpllen]
    simp [hf]
  refine ⟨pl, ?_, hpl30, ?_, ?_⟩
  · simp only [encode_v2_half_parts, List.take_succ_cons, List.take_zero,
      List.drop_succ_cons, List.drop_zero, hscr]
  · intro hf2 x hx
    refine hbits ?_ ?_ ?_ x hx
    · exact fun y hy => hf2 y (List.take_subset _ _ hy)
    · exact fun y hy => hf2 y (List.drop_subset _ _ hy)
    · exact mem_digitBits_lt r5 hd5
  · have hd4 : ∀ x ∈ [d0, d1, d2, d3], x < 4 := by
      intro x hx
      have hmem : x ∈ d0 :: d1 :: d2 :: d3 :: r5 := by
        simp only [List.mem_cons] at hx ⊢
        tauto
      have := hd x hmem
      omega
    have h3 : ¬ (3 ∈ [d0, d1, d2, d3] ++ r5) := by
      intro hc
      have hmem : (3 : Nat) ∈ d0 :: d1 :: d2 :: d3 :: r5 := by
        simpa using hc
      have := hd 3 hmem
      omega
    have hfix1 : (f1.take 10).take 10 = f1.take 10 := by
      rw [List.take_take]
      norm_num
    have hfix2 : (f1.drop 10).take 10 = f1.drop 10 :=
      List.take_of_length_le (by simp [hf])
    simp only [decode_v2_half_parts, List.take_succ_cons, List.take_zero,
      List.drop_succ_cons, List.drop_zero]
    rw [if_neg (by omega)]
    simp only [hunscr, pairDigits_digitBits [d0, d1, d2, d3] hd4,
      pairDigits_digitBits r5 hd5]
    rw [if_neg h3]
    rw [hfix1, hfix2, List.take_append_drop]
    simp

/-- Round trip of one packet half at the parts level, packet type 1
(data present). -/
theorem half_parts_roundtrip_some (r1 f1 db : List Nat)
    (hr : r1.length = 9) (hd : ∀ x ∈ r1, x < 3) (hf : f1.length = 20)
    (hdb : db.length = 16) :
    ∃ pl,
      encode_v2_half_parts r1 f1 (some db) = .ok (1, digitBits (r1.take 4), pl) ∧
      pl.length = 54 ∧
      ((∀ y ∈ f1, y < 2) → (∀ y ∈ db, y < 2) → ∀ x ∈ pl, x < 2) ∧
      decode_v2_half_parts 1 (digitBits (r1.take 4)) pl = .ok (r1, f1, some db) := by
  obtain ⟨d0, d1, d2, d3, r5, hr1⟩ :
      ∃ d0 d1 d2 d3 r5, r1 = d0 :: d1 :: d2 :: d3 :: r5 := by
    rcases r1 with _ | ⟨d0, _ | ⟨d1, _ | ⟨d2, _ | ⟨d3, r5⟩⟩⟩⟩
    · simp at hr
    · simp at hr
    · simp at hr
    · simp at hr
    · exact ⟨d0, d1, d2, d3, r5, rfl⟩
  subst hr1
  have hr5 : r5.length = 5 := by simp at hr; omega
  have hd5 : ∀ x ∈ r5, x < 4 := fun x hx => by have := hd x (by simp [hx]); omega
  have hd4 : ∀ x ∈ [d0, d1, d2, d3], x < 4 := by
    intro x hx
    have : x ∈ d0 :: d1 :: d2 :: d3 :: r5 := by
      simp only [List.mem_cons] at hx ⊢
      tauto
    have := hd x this
    omega
  obtain ⟨ord, inv, ho, hi⟩ := indicator_keys_ok d0 d1 d2 d3
    (hd d0 (by simp)) (hd d1 (by simp)) (hd d2 (by simp)) (hd d3 (by simp))
  obtain ⟨pl, hscr, hpllen, hbits, hunscr⟩ :=
    unscramble_scramble (digitBits [d0, d1, d2, d3]) ord inv
      (f1.take 10 ++ db.take 8, f1.drop 10 ++ db.drop 8,
       digitBits r5 ++ digitBits [d0, d1, d2, d3])
      (by simp [length_digitBits]) ho hi
      (by simp [hf, hdb])
      (by simp [hf, hdb, length_digitBits, hr5])
  have hpl54 : pl.length = 54 := by
    rw [hpllen]
    simp [hf, hdb]
  refine ⟨pl, ?_, hpl54, ?_, ?_⟩
  · simp only [encode_v2_half_parts, List.take_succ_cons, List.take_zero,
      List.drop_succ_cons, List.drop_zero, hscr]
  · intro hf2 hdb2 x hx
    refine hbits ?_ ?_ ?_ x hx
    · intro y hy
      rcases List.mem_append.mp hy with hy | hy
      · exact hf2 y (List.take_subset _ _ hy)
      · exact hdb2 y (List.take_subset _ _ hy)
    · intro y hy
      rcases List.mem_append.mp hy with hy | hy
      · exact hf2 y (List.drop_subset _ _ hy)
      · exact hdb2 y (List.drop_subset _ _ hy)
    · intro y hy
      rcases List.mem_append.mp hy with hy | hy
      · exact mem_digitBits_lt r5 hd5 y hy
      · exact mem_digitBits_lt _ hd4 y hy
  · have hpd2 : pairDigits (digitBits r5 ++ digitBits [d0, d1, d2, d3]) =
        .ok (r5 ++ [d0, d1, d2, d3]) := by
      rw [← digitBits_append]
      refine pairDigits_digitBits _ ?_
      intro x hx
      rcases List.mem_append.mp hx with hx | hx
      · exact hd5 x hx
      · exact hd4 x hx
    have h3 : ¬ (3 ∈ [d0, d1, d2, d3] ++ (r5 ++ [d0, d1, d2, d3])) := by
      intro hc
      rcases List.mem_append.mp hc with hc | hc
      · have := hd4 3 hc
        have h33 : (3 : Nat) ∈ d0 :: d1 :: d2 :: d3 :: r5 := by
          simp only [List.mem_cons] at hc ⊢
          tauto
        have := hd 3 h33
        omega
      · rcases List.mem_append.mp hc with hc | hc
        · have := hd 3 (by simp [hc])
          omega
        · have h33 : (3 : Nat) ∈ d0 :: d1 :: d2 :: d3 :: r5 := by
            simp only [List.mem_cons] at hc ⊢
            tauto
          have := hd 3 h33
          omega
    have hlen13 : ([d0, d1, d2, d3] ++ (r5 ++ [d0, d1, d2, d3])).length = 13 := by
      simp [hr5]
    have hfix1 : (f1.take 10 ++ db.take 8).take 10 = f1.take 10 :=
      List.take_left' (by simp [hf])
    have hfix2 : (f1.drop 10 ++ db.drop 8).take 10 = f1.drop 10 :=
      List.take_left' (by simp [hf])
    have hdat1 : (f1.take 10 ++ db.take 8).drop 10 = db.take 8 :=
      List.drop_left' (by simp [hf])
    have hdat2 : (f1.drop 10 ++ db.drop 8).drop 10 = db.drop 8 :=
      List.drop_left' (by simp [hf])
    have htk4 : ([d0, d1, d2, d3] ++ (r5 ++ [d0, d1, d2, d3])).take 4 = [d0, d1, d2, d3] :=
      List.take_left' rfl
    have hdp9 : ([d0, d1, d2, d3] ++ (r5 ++ [d0, d1, d2, d3])).drop 9 = [d0, d1, d2, d3] := by
      rw [← List.append_assoc]
      exact List.drop_left' (by simp [hr5])
    have htk9 : ([d0, d1, d2, d3] ++ (r5 ++ [d0, d1, d2, d3])).take 9 =
        d0 :: d1 :: d2 :: d3 :: r5 := by
      rw [← List.append_assoc]
      exact List.take_left' (by simp [hr5])
    simp only [decode_v2_half_parts, List.take_succ_cons, List.take_zero,
      List.drop_succ_cons, List.drop_zero]
    rw [if_neg (by omega)]
    simp only [hunscr, pairDigits_digitBits [d0, d1, d2, d3] hd4, hpd2]
    rw [if_neg h3]
    rw [hlen13]
    simp only [show (13 : Nat) - 4 = 9 from rfl]
    rw [htk4, hdp9]
    rw [if_neg (by simp)]
    rw [htk9, hfix1, hfix2, hdat1, hdat2, List.take_append_drop, List.take_append_drop]
    simp

theorem pyGet_cons_zero (a : Nat) (t : List Nat) : pyGet (a :: t) 0 = .ok a := by
  simp [pyGet]

theorem pyGet_cons_one (a b : Nat) (t : List Nat) : pyGet (a :: b :: t) 1 = .ok b := by
  simp [pyGet]

/-- Round trip of an RF packet half, packet type 0. -/
theorem encode_v2_half_roundtrip_none (r1 f1 : List Nat)
    (hr : r1.length = 9) (hd : ∀ x ∈ r1, x < 3) (hf : f1.length = 20) :
    ∃ h, encode_v2_half r1 f1 none = .ok h ∧ h.length = 40 ∧
      decode_v2_half h = .ok (r1, f1, none) := by
  obtain ⟨pl, henc, hlen, _hb, hdec⟩ := half_parts_roundtrip_none r1 f1 hr hd hf
  have hindlen : (digitBits (r1.take 4)).length = 8 := by
    rw [length_digitBits]
    simp [hr]
  refine ⟨0 :: 0 :: (digitBits (r1.take 4) ++ pl), ?_, ?_, ?_⟩
  · simp only [encode_v2_half, henc]
    simp
  · simp [hindlen, hlen]
  · simp only [decode_v2_half, pyGet_cons_zero, pyGet_cons_one]
    simp only [List.drop_succ_cons, List.drop_zero]
    rw [List.take_left' hindlen]
    have : (digitBits (r1.take 4) ++ pl).drop 8 = pl := List.drop_left' hindlen
    rw [this]
    simpa using hdec

/-- Round trip of an RF packet half, packet type 1. -/
theorem encode_v2_half_roundtrip_some (r1 f1 db : List Nat)
    (hr : r1.length = 9) (hd : ∀ x ∈ r1, x < 3) (hf : f1.length = 20)
    (hdb : db.length = 16) :
    ∃ h, encode_v2_half r1 f1 (some db) = .ok h ∧ h.length = 64 ∧
      decode_v2_half h = .ok (r1, f1, some db) := by
  obtain ⟨pl, henc, hlen, _hb, hdec⟩ := half_parts_roundtrip_some r1 f1 db hr hd hf hdb
  have hindlen : (digitBits (r1.take 4)).length = 8 := by
    rw [length_digitBits]
    simp [hr]
  refine ⟨0 :: 1 :: (digitBits (r1.take 4) ++ pl), ?_, ?_, ?_⟩
  · simp only [encode_v2_half, henc]
    simp
  · simp [hindlen, hlen]
  · simp only [decode_v2_half, pyGet_cons_zero, pyGet_cons_one]
    simp only [List.drop_succ_cons, List.drop_zero]
    rw [List.take_left' hindlen]
    have : (digitBits (r1.take 4) ++ pl).drop 8 = pl := List.drop_left' hindlen
    rw [this]
    simpa using hdec

/-- Round trip of a wireline packet half (packet type forced to 1). -/
theorem encode_wireline_half_roundtrip (r1 f1 db : List Nat)
    (hr : r1.length = 9) (hd : ∀ x ∈ r1, x < 3) (hf : f1.length = 20)
    (hdb : db.length = 16) :
    ∃ h, encode_wireline_half r1 f1 db = .ok h ∧ h.length = 64 ∧
      ((∀ y ∈ f1, y < 2) → (∀ y ∈ db, y < 2) → ∀ x ∈ h, x < 2) ∧
      decode_wireline_half h = .ok (r1, f1, some db) := by
  obtain ⟨pl, henc, hlen, hb, hdec⟩ := half_parts_roundtrip_some r1 f1 db hr hd hf hdb
  have hindlen : (digitBits (r1.take 4)).length = 8 := by
    rw [length_digitBits]
    simp [hr]
  have hind10 : (digitBits (r1.take 4) ++ [0, 0]).length = 10 := by
    simp [hindlen]
  refine ⟨digitBits (r1.take 4) ++ [0, 0] ++ pl, ?_, ?_, ?_, ?_⟩
  · simp only [encode_wireline_half, henc]
  · simp [hindlen, hlen]
  · intro hf2 hdb2 x hx
    rcases List.mem_append.mp hx with hx | hx
    · rcases List.mem_append.mp hx with hx | hx
      · refine mem_digitBits_lt _ ?_ x hx
        intro y hy
        have := hd y (List.take_subset _ _ hy)
        omega
      · simp only [List.mem_cons] at hx
        rcases hx with rfl | rfl | hx
        · omega
        · omega
        · simp at hx
    · exact hb hf2 hdb2 x hx
  · simp only [decode_wireline_half]
    have hdr8 : (digitBits (r1.take 4) ++ [0, 0] ++ pl).drop 8 = [0, 0] ++ pl := by
      rw [List.append_assoc]
      exact List.drop_left' hindlen
    have htk2 : ([0, 0] ++ pl).take 2 = [0, 0] := List.take_left' rfl
    rw [hdr8, htk2, if_neg (by simp)]
    have htk8 : (digitBits (r1.take 4) ++ [0, 0] ++ pl).take 8 = digitBits (r1.take 4) := by
      rw [List.append_assoc]
      exact List.take_left' hindlen
    have hdr10 : (digitBits (r1.take 4) ++ [0, 0] ++ pl).drop 10 = pl :=
      List.drop_left' hind10
    rw [htk8, hdr10]
    exact hdec

set_option synthInstance.maxSize 2000 in
set_option maxHeartbeats 1000000 in
/-- Re-expanding a packed byte recovers its eight bits. -/
theorem byteBits_pack :
    ∀ b0 < 2, ∀ b1 < 2, ∀ b2 < 2, ∀ b3 < 2, ∀ b4 < 2, ∀ b5 < 2, ∀ b6 < 2, ∀ b7 < 2,
      byteBits ((b0 <<< 7) ||| (b1 <<< 6) ||| (b2 <<< 5) ||| (b3 <<< 4) |||
        (b4 <<< 3) ||| (b5 <<< 2) ||| (b6 <<< 1) ||| (b7 <<< 0)) =
        [b0, b1, b2, b3, b4, b5, b6, b7] := by decide

/-- Packing a bit list whose length is a multiple of eight and re-expanding
it byte by byte restores the list. -/
theorem packBytes_spec : ∀ (l : List Nat), (∀ x ∈ l, x < 2) → l.length % 8 = 0 →
    (packBytes l).length = l.length / 8 ∧ (packBytes l).flatMap byteBits = l := by
  suffices H : ∀ n l, l.length ≤ n → (∀ x ∈ l, x < 2) → l.length % 8 = 0 →
      (packBytes l).length = l.length / 8 ∧ (packBytes l).flatMap byteBits = l from
    fun l => H l.length l (Nat.le_refl _)
  intro n
  induction n with
  | zero =>
    intro l h1 _ _
    have : l = [] := by
      cases l
      · rfl
      · simp at h1
    subst this
    exact ⟨rfl, rfl⟩
  | succ k ih =>
    intro l h1 hb h8
    rcases l with _ | ⟨b0, _ | ⟨b1, _ | ⟨b2, _ | ⟨b3, _ | ⟨b4, _ | ⟨b5, _ | ⟨b6, _ | ⟨b7, rest⟩⟩⟩⟩⟩⟩⟩⟩
    · exact ⟨rfl, rfl⟩
    · simp at h8
    · simp at h8
    · simp at h8
    · simp at h8
    · simp at h8
    · simp at h8
    · simp at h8
    · have hrk : rest.length ≤ k := by simp at h1; omega
      have hr8 : rest.length % 8 = 0 := by simp at h8; omega
      have hrb : ∀ x ∈ rest, x < 2 := by
        intro x hx
        refine hb x ?_
        simp [hx]
      obtain ⟨ihl, ihf⟩ := ih rest hrk hrb hr8
      have hbyte : byteBits ((b0 <<< 7) ||| (b1 <<< 6) ||| (b2 <<< 5) ||| (b3 <<< 4) |||
          (b4 <<< 3) ||| (b5 <<< 2) ||| (b6 <<< 1) ||| (b7 <<< 0)) =
          [b0, b1, b2, b3, b4, b5, b6, b7] :=
        byteBits_pack b0 (hb b0 (by simp)) b1 (hb b1 (by simp)) b2 (hb b2 (by simp))
          b3 (hb b3 (by simp)) b4 (hb b4 (by simp)) b5 (hb b5 (by simp))
          b6 (hb b6 (by simp)) b7 (hb b7 (by simp))
      constructor
      · simp only [packBytes, List.length_cons, ihl]
        omega
      · simp only [packBytes, List.flatMap_cons, hbyte, ihf]
        simp

/-- Parsing the most-significant-first binary expansion restores the
value. -/
theorem intOfBits_digits (w n : Nat) (h : n < 2 ^ w) :
    intOfBits ((digitsLSB 2 w n).reverse) = n := by
  unfold intOfBits
  rw [valMSB_digitsLSB_reverse 2 (by omega), Nat.mod_eq_of_lt h]

/-- C1: for every `rolling < 2^28`, `fixed < 2^40`, and `data` absent or
`< 2^32`, `decode_v2 (encode_v2 rolling fixed data)` returns exactly
`(rolling, fixed, data)`; likewise, with data present,
`decode_wireline (encode_wireline rolling fixed data)` returns exactly
`(rolling, fixed, data)`. -/
theorem c1_v2_round_trip (rolling fixed : Nat) (data : Option Nat)
    (hro : rolling < 2 ^ 28) (hfi : fixed < 2 ^ 40)
    (hda : ∀ v, data = some v → v < 2 ^ 32) :
    (encode_v2 rolling fixed data).bind decode_v2 = .ok (rolling, fixed, data) ∧
    (∀ v, data = some v →
      (encode_wireline rolling fixed v).bind (fun b => decode_wireline (.bytes b)) =
        .ok (rolling, fixed, v)) := by
  obtain ⟨hl1, hl2, hd1, hd2, hjoin⟩ := encode_v2_rolling_spec rolling hro
  have hf1len : ((digitsLSB 2 40 fixed).reverse.take 20).length = 20 := by
    simp [length_digitsLSB]
  have hf2len : ((digitsLSB 2 40 fixed).reverse.drop 20).length = 20 := by
    simp [length_digitsLSB]
  have hfbb : ∀ y ∈ (digitsLSB 2 40 fixed).reverse, y < 2 := fun y hy =>
    mem_digitsLSB_lt 2 (by omega) _ _ y (by simpa using hy)
  rcases data with _ | v
  · have hchk : v2_check_limits rolling fixed none = .ok () := by
      simp only [v2_check_limits]
      rw [if_neg (by omega), if_neg (by omega)]
    obtain ⟨h1, he1, hl40a, hdec1⟩ := encode_v2_half_roundtrip_none
      (encode_v2_rolling rolling).1 ((digitsLSB 2 40 fixed).reverse.take 20) hl1 hd1 hf1len
    obtain ⟨h2, he2, hl40b, hdec2⟩ := encode_v2_half_roundtrip_none
      (encode_v2_rolling rolling).2 ((digitsLSB 2 40 fixed).reverse.drop 20) hl2 hd2 hf2len
    have henc : encode_v2 rolling fixed none = .ok (h1 ++ h2) := by
      simp only [encode_v2, hchk, he1, he2]
    constructor
    · rw [henc]
      show decode_v2 (h1 ++ h2) = .ok (rolling, fixed, none)
      have hhalf : (h1 ++ h2).length / 2 = 40 := by
        simp [hl40a, hl40b]
      simp only [decode_v2, hhalf]
      rw [List.take_left' hl40a, List.drop_left' hl40a]
      simp only [hdec1, hdec2, hjoin, List.take_append_drop,
        intOfBits_digits 40 fixed hfi]
    · intro v hv
      simp at hv
  · have hv32 : v < 2 ^ 32 := hda v rfl
    have hchk : v2_check_limits rolling fixed (some v) = .ok () := by
      simp only [v2_check_limits]
      rw [if_neg (by omega), if_neg (by omega), if_neg (by omega)]
    have hd1len : ((digitsLSB 2 32 v).reverse.take 16).length = 16 := by
      simp [length_digitsLSB]
    have hd2len : ((digitsLSB 2 32 v).reverse.drop 16).length = 16 := by
      simp [length_digitsLSB]
    have hdbb : ∀ y ∈ (digitsLSB 2 32 v).reverse, y < 2 := fun y hy =>
      mem_digitsLSB_lt 2 (by omega) _ _ y (by simpa using hy)
    constructor
    · obtain ⟨h1, he1, hl64a, hdec1⟩ := encode_v2_half_roundtrip_some
        (encode_v2_rolling rolling).1 ((digitsLSB 2 40 fixed).reverse.take 20)
        ((digitsLSB 2 32 v).reverse.take 16) hl1 hd1 hf1len hd1len
      obtain ⟨h2, he2, hl64b, hdec2⟩ := encode_v2_half_roundtrip_some
        (encode_v2_rolling rolling).2 ((digitsLSB 2 40 fixed).reverse.drop 20)
        ((digitsLSB 2 32 v).reverse.drop 16) hl2 hd2 hf2len hd2len
      have henc : encode_v2 rolling fixed (some v) = .ok (h1 ++ h2) := by
        simp only [encode_v2, hchk, he1, he2]
      rw [henc]
      show decode_v2 (h1 ++ h2) = .ok (rolling, fixed, some v)
      have hhalf : (h1 ++ h2).length / 2 = 64 := by
        simp [hl64a, hl64b]
      simp only [decode_v2, hhalf]
      rw [List.take_left' hl64a, List.drop_left' hl64a]
      simp only [hdec1, hdec2, hjoin, Option.getD_some, List.take_append_drop,
        intOfBits_digits 40 fixed hfi, intOfBits_digits 32 v hv32]
    · intro v' hv'
      have hvv : v' = v := by
        injection hv' with h
        exact h.symm
      subst hvv
      obtain ⟨w1, hw1, hlw1, hb1, hwdec1⟩ := encode_wireline_half_roundtrip
        (encode_v2_rolling rolling).1 ((digitsLSB 2 40 fixed).reverse.take 20)
        ((digitsLSB 2 32 v').reverse.take 16) hl1 hd1 hf1len hd1len
      obtain ⟨w2, hw2, hlw2, hb2, hwdec2⟩ := encode_wireline_half_roundtrip
        (encode_v2_rolling rolling).2 ((digitsLSB 2 40 fixed).reverse.drop 20)
        ((digitsLSB 2 32 v').reverse.drop 16) hl2 hd2 hf2len hd2len
      have hwenc : encode_wireline rolling fixed v' =
          .ok ([0x55, 0x01, 0x00] ++ packBytes (w1 ++ w2)) := by
        simp only [encode_wireline, hchk, hw1, hw2]
      rw [hwenc]
      show decode_wireline (.bytes ([0x55, 0x01, 0x00] ++ packBytes (w1 ++ w2))) =
        .ok (rolling, fixed, v')
      have hwb : ∀ x ∈ w1 ++ w2, x < 2 := by
        intro x hx
        rcases List.mem_append.mp hx with hx | hx
        · exact hb1 (fun y hy => hfbb y (List.take_subset _ _ hy))
            (fun y hy => hdbb y (List.take_subset _ _ hy)) x hx
        · exact hb2 (fun y hy => hfbb y (List.drop_subset _ _ hy))
            (fun y hy => hdbb y (List.drop_subset _ _ hy)) x hx
      have hwlen : (w1 ++ w2).length = 128 := by
        simp [hlw1, hlw2]
      obtain ⟨hpl, hpf⟩ := packBytes_spec (w1 ++ w2) hwb (by rw [hwlen])
      have hplen : (packBytes (w1 ++ w2)).length = 16 := by
        rw [hpl, hwlen]
      simp only [decode_wireline]
      rw [if_neg (by simp [hplen]), if_neg (by simp)]
      have hdr3 : ([0x55, 0x01, 0x00] ++ packBytes (w1 ++ w2)).drop 3 =
          packBytes (w1 ++ w2) := List.drop_left' rfl
      rw [hdr3, hpf]
      rw [List.take_left' hlw1, List.drop_left' hlw1]
      simp only [hwdec1, hwdec2, hjoin, Option.getD_some, List.take_append_drop,
        intOfBits_digits 40 fixed hfi, intOfBits_digits 32 v' hv32]

/-- C1 witness: concrete round trips through the v2 RF and wireline
codecs. -/
theorem c1_v2_round_trip_witness :
    (encode_v2 1 2 (some 3)).bind decode_v2 = .ok (1, 2, some 3) ∧
    (encode_wireline 1 2 3).bind (fun b => decode_wireline (.bytes b)) = .ok (1, 2, 3) :=
  ⟨(c1_v2_round_trip 1 2 (some 3) (by norm_num) (by norm_num)
      (fun v hv => by cases hv; norm_num)).1,
   (c1_v2_round_trip 1 2 (some 3) (by norm_num) (by norm_num)
      (fun v hv => by cases hv; norm_num)).2 3 rfl⟩

end Secplus
